import Mathlib

/-!
Verification of the midisync timeline-construction core.

The repository has two Python programs, `midisync.py` and `midisync_nogui.py`.
Both share the same event extractor `extractNotes`; the timeline builder in
`createVideo` differs only in the fit policy when the source clip is shorter
than a note (bounce in `midisync.py`, loop in `midisync_nogui.py`).

Times are modelled as rationals (the Python code computes with floats but the
algorithms are plain field arithmetic and comparisons; ℚ gives the exact
arithmetic behaviour of the algorithm).  MIDI messages are modelled as an
already-decoded list of delta-timed events, matching the `for msg in mid`
loop which only inspects `msg.type`, `msg.note`, `msg.velocity`, `msg.time`.
-/

set_option autoImplicit false

namespace Midisync

/-- A decoded MIDI message as consumed by `extractNotes`: a note-on with a
velocity, a note-off, or any other message (which only advances the clock).
`time` is the delta time in seconds added to the running clock. -/
inductive MidiMsg where
  | noteOn (note : Nat) (velocity : Nat) (time : ℚ)
  | noteOff (note : Nat) (time : ℚ)
  | other (time : ℚ)
deriving DecidableEq, Repr

/-- A matched note interval, the dict
`{'pitch': …, 'start': …, 'end': …}` built in `extractNotes`. -/
structure NoteEvent where
  pitch : Nat
  start : ℚ
  endTime : ℚ
deriving DecidableEq, Repr

/-- A grouped note/chord event, the dict
`{'noteNum': …, 'start': …, 'end': …}` returned by `extractNotes`. -/
structure GroupedEvent where
  noteNum : Nat
  start : ℚ
  endTime : ℚ
deriving DecidableEq, Repr

/-- Python dict assignment `d[k] = v`: overwrite the value if the key is
present, else append the binding. -/
def dictInsert (k : Nat) (v : ℚ) : List (Nat × ℚ) → List (Nat × ℚ)
  | [] => [(k, v)]
  | (k0, v0) :: rest =>
      if k0 = k then (k, v) :: rest else (k0, v0) :: dictInsert k v rest

/-- Python `del d[k]` (on a dict with unique keys): drop the first binding of
the key. -/
def dictRemove (k : Nat) : List (Nat × ℚ) → List (Nat × ℚ)
  | [] => []
  | (k0, v0) :: rest =>
      if k0 = k then rest else (k0, v0) :: dictRemove k rest

/-- The mutable state of the message loop in `extractNotes`: the running
clock `currentTime`, the `activeNotes` dict, and the `noteEvents` list. -/
structure ExtractState where
  currentTime : ℚ
  activeNotes : List (Nat × ℚ)
  noteEvents : List NoteEvent
deriving DecidableEq, Repr

/-- One iteration of the `for msg in mid` loop of `extractNotes`
(midisync.py lines 43–58): advance the clock by `msg.time`; a note-on with
positive velocity records the start in `activeNotes` (overwriting); a
note-off, or a note-on with zero velocity, emits a `NoteEvent` when the pitch
has a recorded start (and removes it), and is silently ignored otherwise. -/
def stepMsg (st : ExtractState) (msg : MidiMsg) : ExtractState :=
  match msg with
  | .noteOn note velocity time =>
      let t := st.currentTime + time
      if 0 < velocity then
        { currentTime := t
          activeNotes := dictInsert note t st.activeNotes
          noteEvents := st.noteEvents }
      else
        match List.lookup note st.activeNotes with
        | some s =>
            { currentTime := t
              activeNotes := dictRemove note st.activeNotes
              noteEvents := st.noteEvents ++ [⟨note, s, t⟩] }
        | none =>
            { currentTime := t
              activeNotes := st.activeNotes
              noteEvents := st.noteEvents }
  | .noteOff note time =>
      let t := st.currentTime + time
      match List.lookup note st.activeNotes with
      | some s =>
          { currentTime := t
            activeNotes := dictRemove note st.activeNotes
            noteEvents := st.noteEvents ++ [⟨note, s, t⟩] }
      | none =>
          { currentTime := t
            activeNotes := st.activeNotes
            noteEvents := st.noteEvents }
  | .other time =>
      { st with currentTime := st.currentTime + time }

/-- The matched note intervals produced by the message loop of
`extractNotes`, in emission order. -/
def noteEventsOf (msgs : List MidiMsg) : List NoteEvent :=
  (msgs.foldl stepMsg ⟨0, [], []⟩).noteEvents

/-- Stable insertion of a note event after all events with start ≤ its own:
the building block of the stable sort-by-start. -/
def insertByStart (e : NoteEvent) : List NoteEvent → List NoteEvent
  | [] => [e]
  | x :: xs => if x.start ≤ e.start then x :: insertByStart e xs else e :: x :: xs

/-- `noteEvents.sort(key=lambda x: x['start'])` (midisync.py line 61):
Python's sort is stable; a left-to-right stable insertion sort by `start` is
extensionally the same function on the emitted list. -/
def sortByStart (l : List NoteEvent) : List NoteEvent :=
  l.foldl (fun acc e => insertByStart e acc) []

/-- One iteration of the grouping loop of `extractNotes` (midisync.py lines
68–76), on the state `(noteNum, lastStartTime, groupedEvents)`: a new group
is started when `lastStartTime is None` or
`event['start'] - lastStartTime > chordThreshold`; otherwise the event is
absorbed and the state is unchanged. -/
def groupStep (chordThreshold : ℚ) (st : Nat × Option ℚ × List GroupedEvent)
    (event : NoteEvent) : Nat × Option ℚ × List GroupedEvent :=
  match st with
  | (noteNum, lastStartTime, groupedEvents) =>
      match lastStartTime with
      | none =>
          (noteNum + 1, some event.start,
            groupedEvents ++ [⟨noteNum + 1, event.start, event.endTime⟩])
      | some last =>
          if event.start - last > chordThreshold then
            (noteNum + 1, some event.start,
              groupedEvents ++ [⟨noteNum + 1, event.start, event.endTime⟩])
          else
            (noteNum, some last, groupedEvents)

/-- The grouping pass of `extractNotes`: fold `groupStep` over the sorted
note events starting from `noteNum = 0`, `lastStartTime = None`, `[]`. -/
def groupNotes (chordThreshold : ℚ) (l : List NoteEvent) : List GroupedEvent :=
  (l.foldl (groupStep chordThreshold) (0, none, [])).2.2

/-- `extractNotes` of midisync.py (lines 20–88), as a function of the decoded
message list: match on/off pairs, sort stably by start, group by
`chordThreshold`.  The `print` diagnostics are side effects with no influence
on the returned list. -/
def extractNotes (msgs : List MidiMsg) (chordThreshold : ℚ) : List GroupedEvent :=
  groupNotes chordThreshold (sortByStart (noteEventsOf msgs))

/-- How the content of a note clip is taken from the source clip:
`trim` = `sourceClip.subclip(0, duration)`; `loop` = forward copies
concatenated then trimmed (midisync_nogui.py); `bounce` = alternating
forward/reversed chunks (midisync.py). -/
inductive SourceStyle where
  | trim
  | loop
  | bounce
deriving DecidableEq, Repr

/-- A timeline segment appended to `videoClips` in `createVideo`: either a
green-screen gap clip of a given duration, or a note content clip with its
duration, whether it was horizontally flipped, and its source style. -/
inductive Segment where
  | filler (duration : ℚ)
  | content (duration : ℚ) (flipped : Bool) (style : SourceStyle)
deriving DecidableEq, Repr

/-- The duration of a segment. -/
def Segment.duration : Segment → ℚ
  | .filler d => d
  | .content d _ _ => d

/-- The flip flag of a content segment; gap fillers carry none. -/
def Segment.flipOf : Segment → Option Bool
  | .filler _ => none
  | .content _ f _ => some f

/-- The source style of a content segment; gap fillers carry none. -/
def Segment.styleOf : Segment → Option SourceStyle
  | .filler _ => none
  | .content _ _ s => some s

/-- The sum of the durations of a list of segments. -/
def segsSum (l : List Segment) : ℚ :=
  (l.map Segment.duration).sum

/-- The end time of the last grouped event of a list (`groupedEvents[-1].end`),
0 for the empty list. -/
def lastEnd : List GroupedEvent → ℚ
  | [] => 0
  | [ev] => ev.endTime
  | _ :: ev :: rest => lastEnd (ev :: rest)

/-- The gap check of `createVideo` (both files): when `startTime > currentPos`
a green `ColorClip` of duration `startTime - currentPos` is appended, else
nothing. -/
def gapClip (currentPos : ℚ) (ev : GroupedEvent) : List Segment :=
  if ev.start > currentPos then [.filler (ev.start - currentPos)] else []

/-- The `while remainingDuration > 0` loop of midisync.py (lines 141–154):
each iteration takes a chunk of length `min(remainingDuration,
sourceClip.duration)` in the current direction (`true` = forward), subtracts
it from the remaining duration and flips the direction.  The Python loop
never terminates when `sourceClip.duration ≤ 0` (the remaining duration does
not decrease); the guard `0 < src` makes the Lean function total and every
theorem about the bounce path assumes a positive source duration. -/
def bounceChunks (src : ℚ) (forward : Bool) (remaining : ℚ) : List (ℚ × Bool) :=
  if h : 0 < remaining ∧ 0 < src then
    (min remaining src, forward) :: bounceChunks src (!forward) (remaining - min remaining src)
  else []
termination_by (⌈remaining / src⌉).toNat
decreasing_by
  obtain ⟨hr, hs⟩ := h
  have hpos : 0 < ⌈remaining / src⌉ := Int.ceil_pos.mpr (div_pos hr hs)
  by_cases hc : remaining ≤ src
  · rw [min_eq_left hc, sub_self, zero_div, Int.ceil_zero]
    omega
  · push_neg at hc
    rw [min_eq_right hc.le]
    have hdiv : (remaining - src) / src = remaining / src - 1 := by
      rw [sub_div, div_self (ne_of_gt hs)]
    rw [hdiv, Int.ceil_sub_one]
    omega

/-- The note-clip construction of midisync.py `createVideo` (lines 132–162)
for one grouped event: when the source is shorter than the note, the bounce
chunks are concatenated (the concatenated clip's duration is the sum of the
chunk durations); otherwise `sourceClip.subclip(0, duration)` is taken.
Even note numbers are flipped horizontally. -/
def noteClipMidisync (srcDur : ℚ) (ev : GroupedEvent) : Segment :=
  let duration := ev.endTime - ev.start
  let flipped := ev.noteNum % 2 == 0
  if srcDur < duration then
    .content ((bounceChunks srcDur true duration).map Prod.fst).sum flipped .bounce
  else
    .content duration flipped .trim

/-- The note-clip construction of midisync_nogui.py `createVideo` (lines
134–146) for one grouped event: when the source is shorter than the note,
`ceil(duration / sourceDuration)` forward copies are concatenated and the
result is trimmed to `subclip(0, duration)`, a clip of length `duration`
(this requires `0 < sourceDuration`; with a non-positive source duration
the Python code crashes in `concatenate_videoclips` on an empty list);
otherwise `sourceClip.subclip(0, duration)` is taken.  Even note numbers are
flipped horizontally. -/
def noteClipNogui (srcDur : ℚ) (ev : GroupedEvent) : Segment :=
  let duration := ev.endTime - ev.start
  let flipped := ev.noteNum % 2 == 0
  if srcDur < duration then
    .content duration flipped .loop
  else
    .content duration flipped .trim

/-- The timeline loop of midisync.py `createVideo` (lines 110–165): for each
grouped event append the gap filler (if any) and the note clip, then advance
`currentPos` to the event's end. -/
def buildMidisync (srcDur : ℚ) (currentPos : ℚ) : List GroupedEvent → List Segment
  | [] => []
  | ev :: rest =>
      gapClip currentPos ev ++ noteClipMidisync srcDur ev :: buildMidisync srcDur ev.endTime rest

/-- The timeline loop of midisync_nogui.py `createVideo` (lines 112–149). -/
def buildNogui (srcDur : ℚ) (currentPos : ℚ) : List GroupedEvent → List Segment
  | [] => []
  | ev :: rest =>
      gapClip currentPos ev ++ noteClipNogui srcDur ev :: buildNogui srcDur ev.endTime rest

/-- A timeline loop generalized over the per-event note-clip function; both
`buildMidisync` and `buildNogui` are instances (proved below), letting the
telescoping-sum and flip arguments be made once. -/
def buildWith (clip : GroupedEvent → Segment) (currentPos : ℚ) : List GroupedEvent → List Segment
  | [] => []
  | ev :: rest => gapClip currentPos ev ++ clip ev :: buildWith clip ev.endTime rest

end Midisync

namespace Nogui

open Midisync (MidiMsg NoteEvent GroupedEvent ExtractState dictInsert dictRemove)

/-- One iteration of the `for msg in mid` loop of `extractNotes` in
midisync_nogui.py (lines 43–58); the code is identical to midisync.py's. -/
def stepMsg (st : ExtractState) (msg : MidiMsg) : ExtractState :=
  match msg with
  | .noteOn note velocity time =>
      let t := st.currentTime + time
      if 0 < velocity then
        { currentTime := t
          activeNotes := dictInsert note t st.activeNotes
          noteEvents := st.noteEvents }
      else
        match List.lookup note st.activeNotes with
        | some s =>
            { currentTime := t
              activeNotes := dictRemove note st.activeNotes
              noteEvents := st.noteEvents ++ [⟨note, s, t⟩] }
        | none =>
            { currentTime := t
              activeNotes := st.activeNotes
              noteEvents := st.noteEvents }
  | .noteOff note time =>
      let t := st.currentTime + time
      match List.lookup note st.activeNotes with
      | some s =>
          { currentTime := t
            activeNotes := dictRemove note st.activeNotes
            noteEvents := st.noteEvents ++ [⟨note, s, t⟩] }
      | none =>
          { currentTime := t
            activeNotes := st.activeNotes
            noteEvents := st.noteEvents }
  | .other time =>
      { st with currentTime := st.currentTime + time }

/-- The matched note intervals produced by the message loop of
midisync_nogui.py's `extractNotes`. -/
def noteEventsOf (msgs : List MidiMsg) : List NoteEvent :=
  (msgs.foldl stepMsg ⟨0, [], []⟩).noteEvents

/-- Stable insertion by start time (midisync_nogui.py line 61 models the same
stable Python sort). -/
def insertByStart (e : NoteEvent) : List NoteEvent → List NoteEvent
  | [] => [e]
  | x :: xs => if x.start ≤ e.start then x :: insertByStart e xs else e :: x :: xs

/-- `noteEvents.sort(key=lambda x: x['start'])` of midisync_nogui.py. -/
def sortByStart (l : List NoteEvent) : List NoteEvent :=
  l.foldl (fun acc e => insertByStart e acc) []

/-- One iteration of the grouping loop of midisync_nogui.py `extractNotes`
(lines 68–76); the code is identical to midisync.py's. -/
def groupStep (chordThreshold : ℚ) (st : Nat × Option ℚ × List GroupedEvent)
    (event : NoteEvent) : Nat × Option ℚ × List GroupedEvent :=
  match st with
  | (noteNum, lastStartTime, groupedEvents) =>
      match lastStartTime with
      | none =>
          (noteNum + 1, some event.start,
            groupedEvents ++ [⟨noteNum + 1, event.start, event.endTime⟩])
      | some last =>
          if event.start - last > chordThreshold then
            (noteNum + 1, some event.start,
              groupedEvents ++ [⟨noteNum + 1, event.start, event.endTime⟩])
          else
            (noteNum, some last, groupedEvents)

/-- The grouping pass of midisync_nogui.py's `extractNotes`. -/
def groupNotes (chordThreshold : ℚ) (l : List NoteEvent) : List GroupedEvent :=
  (l.foldl (groupStep chordThreshold) (0, none, [])).2.2

/-- `extractNotes` of midisync_nogui.py (lines 20–88). -/
def extractNotes (msgs : List MidiMsg) (chordThreshold : ℚ) : List GroupedEvent :=
  groupNotes chordThreshold (sortByStart (noteEventsOf msgs))

end Nogui

namespace Midisync

/-- The pure core of midisync_nogui.py `createVideo` (lines 90–153) as a
function from the decoded messages and the configuration to the segment
plan: extract the grouped events, return `none` when there are none
("No notes found", early return), otherwise build the timeline from
position 0.  No validation of `chordThreshold`, `sourceDuration` or the
frame rate is performed anywhere in the code; the frame rate is used only
when the finished video is written out and does not influence the segments. -/
def createVideoSegments (msgs : List MidiMsg) (chordThreshold : ℚ)
    (sourceDuration : ℚ) : Option (List Segment) :=
  let noteEvents := Nogui.extractNotes msgs chordThreshold
  if noteEvents.isEmpty then none
  else some (buildNogui sourceDuration 0 noteEvents)

end Midisync

open Midisync

/-- Closed form of the bounce loop: with a positive source duration the
chunk list is exactly `⌈remaining/src⌉` entries, the `i`-th of length
`min(remaining - i·src, src)`, alternating direction from `forward`. -/
theorem bounceChunks_closed {src : ℚ} (hs : 0 < src) (forward : Bool) (remaining : ℚ) :
    bounceChunks src forward remaining =
      (List.range (⌈remaining / src⌉.toNat)).map
        (fun (i : ℕ) => (min (remaining - (i : ℚ) * src) src,
                   if i % 2 = 0 then forward else !forward)) := by
  induction forward, remaining using bounceChunks.induct src with
  | case1 forward remaining h ih =>
      have hr : (0:ℚ) < remaining := h.1
      rw [bounceChunks, dif_pos h]
      by_cases hc : remaining ≤ src
      · have hmin : min remaining src = remaining := min_eq_left hc
        have hceil : ⌈remaining / src⌉ = 1 := by
          have hle : ⌈remaining / src⌉ ≤ 1 := Int.ceil_le.mpr (by
            push_cast
            rw [div_le_one hs]
            exact hc)
          have hpos : 0 < ⌈remaining / src⌉ := Int.ceil_pos.mpr (div_pos hr hs)
          omega
        have htail : bounceChunks src (!forward) (remaining - min remaining src) = [] := by
          rw [hmin, sub_self, bounceChunks, dif_neg (by simp)]
        have hrange : List.range (Int.toNat 1) = [0] := rfl
        rw [htail, hceil, hrange]
        simp [hmin, hc]
      · push_neg at hc
        have hmin : min remaining src = src := min_eq_right hc.le
        have hdiv : (remaining - src) / src = remaining / src - 1 := by
          rw [sub_div, div_self (ne_of_gt hs)]
        have hpos : 0 < ⌈remaining / src⌉ := Int.ceil_pos.mpr (div_pos hr hs)
        have hn : ⌈remaining / src⌉.toNat = ⌈(remaining - src) / src⌉.toNat + 1 := by
          rw [hdiv, Int.ceil_sub_one]
          omega
        rw [hmin] at ih ⊢
        rw [ih, hn, List.range_succ_eq_map, List.map_cons, List.map_map]
        congr 1
        · simp [hc.le]
        · refine List.map_congr_left (fun i hi => ?_)
          simp only [Function.comp_apply, Prod.mk.injEq]
          refine ⟨?_, ?_⟩
          · congr 1
            push_cast
            ring
          · by_cases hp : i % 2 = 0
            · rw [if_pos hp, if_neg (by omega)]
            · rw [if_neg hp, if_pos (by omega), Bool.not_not]
  | case2 forward remaining h =>
      have hr : remaining ≤ 0 := by
        by_contra hr
        push_neg at hr
        exact h ⟨hr, hs⟩
      have hceil : ⌈remaining / src⌉.toNat = 0 := by
        have hle : ⌈remaining / src⌉ ≤ 0 := Int.ceil_le.mpr (by
          push_cast
          exact div_nonpos_iff.mpr (Or.inr ⟨hr, hs.le⟩))
        omega
      rw [bounceChunks, dif_neg h, hceil]
      rfl

/-- The bounce chunks sum to the requested duration (0 when it is ≤ 0). -/
theorem bounceChunks_sum {src : ℚ} (hs : 0 < src) (forward : Bool) (remaining : ℚ) :
    ((bounceChunks src forward remaining).map Prod.fst).sum = max remaining 0 := by
  induction forward, remaining using bounceChunks.induct src with
  | case1 forward remaining h ih =>
      rw [bounceChunks, dif_pos h]
      simp only [List.map_cons, List.sum_cons, ih]
      have h1 : min remaining src ≤ remaining := min_le_left _ _
      have h2 : (0:ℚ) < remaining := h.1
      rw [max_eq_left (by linarith), max_eq_left (by linarith)]
      ring
  | case2 forward remaining h =>
      rw [bounceChunks, dif_neg h]
      have hr : remaining ≤ 0 := by
        by_contra hr
        push_neg at hr
        exact h ⟨hr, hs⟩
      simp [max_eq_right hr]


/-- `buildMidisync` is `buildWith` applied to the bounce/trim note clip. -/
theorem buildMidisync_eq_buildWith (srcDur : ℚ) (currentPos : ℚ) (evs : List GroupedEvent) :
    buildMidisync srcDur currentPos evs = buildWith (noteClipMidisync srcDur) currentPos evs := by
  induction evs generalizing currentPos with
  | nil => rfl
  | cons ev rest ih => simp [buildMidisync, buildWith, ih]

/-- `buildNogui` is `buildWith` applied to the loop/trim note clip. -/
theorem buildNogui_eq_buildWith (srcDur : ℚ) (currentPos : ℚ) (evs : List GroupedEvent) :
    buildNogui srcDur currentPos evs = buildWith (noteClipNogui srcDur) currentPos evs := by
  induction evs generalizing currentPos with
  | nil => rfl
  | cons ev rest ih => simp [buildNogui, buildWith, ih]

/-- Segment durations sum componentwise over concatenation. -/
theorem segsSum_append (a b : List Segment) : segsSum (a ++ b) = segsSum a + segsSum b := by
  simp [segsSum]

/-- When the cursor is not past the event start, the gap filler contributes
exactly `start - currentPos` (0 when they coincide). -/
theorem segsSum_gapClip (currentPos : ℚ) (ev : GroupedEvent) (h : currentPos ≤ ev.start) :
    segsSum (gapClip currentPos ev) = ev.start - currentPos := by
  unfold gapClip
  by_cases hc : ev.start > currentPos
  · rw [if_pos hc]
    simp [segsSum, Segment.duration]
  · rw [if_neg hc]
    push_neg at hc
    have : ev.start = currentPos := le_antisymm hc h
    simp [segsSum, this]

/-- The nogui note clip always has duration `end - start`. -/
theorem noteClipNogui_duration (srcDur : ℚ) (ev : GroupedEvent) :
    (noteClipNogui srcDur ev).duration = ev.endTime - ev.start := by
  simp only [noteClipNogui]
  split <;> rfl

/-- With a positive source duration the midisync note clip has duration
`end - start` (in the bounce branch the chunks sum to it). -/
theorem noteClipMidisync_duration (srcDur : ℚ) (hs : 0 < srcDur) (ev : GroupedEvent) :
    (noteClipMidisync srcDur ev).duration = ev.endTime - ev.start := by
  simp only [noteClipMidisync]
  split
  · next hlt =>
      simp only [Segment.duration]
      rw [bounceChunks_sum hs]
      exact max_eq_left (by linarith)
  · rfl

/-- Telescoping sum: starting at or before the first event's start, with
consecutive events non-overlapping, the built segments' durations sum to
the last end minus the initial cursor. -/
theorem buildWith_sum (clip : GroupedEvent → Segment)
    (hdur : ∀ ev, (clip ev).duration = ev.endTime - ev.start) :
    ∀ (rest : List GroupedEvent) (ev : GroupedEvent) (currentPos : ℚ),
      currentPos ≤ ev.start →
      List.Chain' (fun a b => a.endTime ≤ b.start) (ev :: rest) →
      segsSum (buildWith clip currentPos (ev :: rest)) = lastEnd (ev :: rest) - currentPos := by
  intro rest
  induction rest with
  | nil =>
      intro ev currentPos hle _
      show segsSum (gapClip currentPos ev ++ clip ev :: buildWith clip ev.endTime []) = _
      rw [segsSum_append, segsSum_gapClip _ _ hle]
      simp only [buildWith, segsSum, List.map_cons, List.map_nil, List.sum_cons, List.sum_nil,
        lastEnd, hdur]
      ring
  | cons ev2 rest' ih =>
      intro ev currentPos hle hchain
      have h12 : ev.endTime ≤ ev2.start := (List.chain'_cons.mp hchain).1
      have hchain2 : List.Chain' (fun a b => a.endTime ≤ b.start) (ev2 :: rest') :=
        (List.chain'_cons.mp hchain).2
      show segsSum (gapClip currentPos ev ++ clip ev :: buildWith clip ev.endTime (ev2 :: rest')) = _
      rw [segsSum_append, segsSum_gapClip _ _ hle]
      have : segsSum (clip ev :: buildWith clip ev.endTime (ev2 :: rest')) =
          (clip ev).duration + segsSum (buildWith clip ev.endTime (ev2 :: rest')) := by
        simp [segsSum]
      rw [this, hdur, ih ev2 ev.endTime h12 hchain2]
      show _ = lastEnd (ev :: ev2 :: rest') - currentPos
      rw [show lastEnd (ev :: ev2 :: rest') = lastEnd (ev2 :: rest') from rfl]
      ring

/-- The flip flags of the built timeline are exactly the per-event clip
flags, in event order; gap fillers contribute none. -/
theorem buildWith_filterMap_flip (clip : GroupedEvent → Segment) :
    ∀ (evs : List GroupedEvent) (currentPos : ℚ),
      (buildWith clip currentPos evs).filterMap Segment.flipOf
        = evs.filterMap (fun ev => (clip ev).flipOf) := by
  intro evs
  induction evs with
  | nil => intro _; rfl
  | cons ev rest ih =>
      intro currentPos
      show (gapClip currentPos ev ++ clip ev :: buildWith clip ev.endTime rest).filterMap _ = _
      rw [List.filterMap_append]
      have hgap : (gapClip currentPos ev).filterMap Segment.flipOf = [] := by
        unfold gapClip
        split <;> simp [Segment.flipOf]
      rw [hgap, List.filterMap_cons, List.nil_append]
      rw [List.filterMap_cons]
      cases hflip : (clip ev).flipOf with
      | none => simp [ih]
      | some b => simp [ih]

/-- The nogui note clip's flip flag is the parity test on `noteNum`. -/
theorem noteClipNogui_flipOf (srcDur : ℚ) (ev : GroupedEvent) :
    (noteClipNogui srcDur ev).flipOf = some (ev.noteNum % 2 == 0) := by
  simp only [noteClipNogui]
  split <;> rfl

/-- The midisync note clip's flip flag is the parity test on `noteNum`. -/
theorem noteClipMidisync_flipOf (srcDur : ℚ) (ev : GroupedEvent) :
    (noteClipMidisync srcDur ev).flipOf = some (ev.noteNum % 2 == 0) := by
  simp only [noteClipMidisync]
  split <;> rfl

/-- Absorption: folding the grouping step over events none of which exceeds
the kept start by more than the threshold leaves the state unchanged. -/
theorem groupNotes_absorb (t : ℚ) :
    ∀ (rest : List NoteEvent) (n : Nat) (last : ℚ) (acc : List GroupedEvent),
      (∀ r ∈ rest, ¬(r.start - last > t)) →
      rest.foldl (groupStep t) (n, some last, acc) = (n, some last, acc) := by
  intro rest
  induction rest with
  | nil => intro n last acc _; rfl
  | cons r rest' ih =>
      intro n last acc hall
      have hr : ¬(r.start - last > t) := hall r (List.mem_cons_self r rest')
      have hstep : groupStep t (n, some last, acc) r = (n, some last, acc) := by
        simp only [groupStep]
        rw [if_neg hr]
      rw [List.foldl_cons, hstep]
      exact ih n last acc (fun x hx => hall x (List.mem_cons_of_mem r hx))

/-- Looking up a key right after inserting it yields the inserted value. -/
theorem lookup_dictInsert_self (k : Nat) (v : ℚ) :
    ∀ l : List (Nat × ℚ), List.lookup k (dictInsert k v l) = some v := by
  intro l
  induction l with
  | nil => simp [dictInsert, List.lookup]
  | cons kv rest ih =>
      obtain ⟨k0, v0⟩ := kv
      by_cases hk : k0 = k
      · simp [dictInsert, hk, List.lookup]
      · simp only [dictInsert, if_neg hk, List.lookup]
        have hne : (k == k0) = false := beq_eq_false_iff_ne.mpr (fun h => hk h.symm)
        rw [hne]
        exact ih

/-- C4: grouping is a greedy left-to-right sweep.  A note starts a new group
exactly when there is no previous kept start (second conjunct) or its start
exceeds the previous kept start by more than `chordThreshold` (third
conjunct); an absorbed note leaves the group's recorded start and end and
the kept start unchanged (fourth conjunct); hence a chain of notes each
within `chordThreshold` of the first (kept) note's start is merged into a
single group whose start and end come from that first note only (first
conjunct). -/
theorem grouping_greedy_sweep (t : ℚ) (ht : 0 < t) :
    (∀ (e : NoteEvent) (rest : List NoteEvent),
        (∀ r ∈ rest, r.start - e.start ≤ t) →
        groupNotes t (e :: rest) = [⟨1, e.start, e.endTime⟩]) ∧
    (∀ (n : Nat) (acc : List GroupedEvent) (ev : NoteEvent),
        groupStep t (n, none, acc) ev
          = (n + 1, some ev.start, acc ++ [⟨n + 1, ev.start, ev.endTime⟩])) ∧
    (∀ (n : Nat) (last : ℚ) (acc : List GroupedEvent) (ev : NoteEvent),
        ev.start - last > t →
        groupStep t (n, some last, acc) ev
          = (n + 1, some ev.start, acc ++ [⟨n + 1, ev.start, ev.endTime⟩])) ∧
    (∀ (n : Nat) (last : ℚ) (acc : List GroupedEvent) (ev : NoteEvent),
        ¬(ev.start - last > t) →
        groupStep t (n, some last, acc) ev = (n, some last, acc)) := by
  refine ⟨?_, ?_, ?_, ?_⟩
  · intro e rest hall
    unfold groupNotes
    rw [List.foldl_cons]
    have hfirst : groupStep t (0, none, []) e = (1, some e.start, [⟨1, e.start, e.endTime⟩]) := rfl
    rw [hfirst, groupNotes_absorb t rest 1 e.start _ (fun r hr => not_lt.mpr (hall r hr))]
  · intro n acc ev
    rfl
  · intro n last acc ev hgt
    simp only [groupStep]
    rw [if_pos hgt]
  · intro n last acc ev hle
    simp only [groupStep]
    rw [if_neg hle]

/-- Witness for C4 at `chordThreshold = 1/10`: two notes 1/20 apart form one
group carrying the first note's times. -/
theorem grouping_greedy_sweep_witness :
    groupNotes (1/10) [⟨60, 0, 1/2⟩, ⟨64, 1/20, 9/20⟩] = [⟨1, 0, 1/2⟩] :=
  (grouping_greedy_sweep (1/10) (by norm_num)).1 ⟨60, 0, 1/2⟩ [⟨64, 1/20, 9/20⟩] (by
    intro r hr
    simp only [List.mem_singleton] at hr
    subst hr
    show (1/20 : ℚ) - 0 ≤ 1/10
    norm_num)

/-- C9: extraction is a deterministic pure function of its input: two runs
on equal message streams and equal thresholds yield equal grouped-event
lists. -/
theorem extract_deterministic (msgs1 msgs2 : List MidiMsg) (t1 t2 : ℚ)
    (hm : msgs1 = msgs2) (ht : t1 = t2) :
    extractNotes msgs1 t1 = extractNotes msgs2 t2 := by
  rw [hm, ht]

/-- Witness for C9 on a concrete one-note stream. -/
theorem extract_deterministic_witness :
    extractNotes [.noteOn 60 1 0, .noteOff 60 1] (1/10)
      = extractNotes [.noteOn 60 1 0, .noteOff 60 1] (1/10) :=
  extract_deterministic _ _ _ _ rfl rfl

/-- C10: the extractors of the two programs are extensionally equal: on
every decoded message stream and threshold, `extractNotes` of midisync.py
and `extractNotes` of midisync_nogui.py return identical lists. -/
theorem extract_equiv_files (msgs : List MidiMsg) (t : ℚ) :
    Midisync.extractNotes msgs t = Nogui.extractNotes msgs t := by
  have hstep : Midisync.stepMsg = Nogui.stepMsg := by
    funext st msg
    cases msg <;> rfl
  have hins : Midisync.insertByStart = Nogui.insertByStart := by
    funext e l
    induction l with
    | nil => rfl
    | cons x xs ih => simp only [Midisync.insertByStart, Nogui.insertByStart, ih]
  have hgs : Midisync.groupStep = Nogui.groupStep := by
    funext u st ev
    obtain ⟨n, lst, acc⟩ := st
    cases lst <;> rfl
  simp only [Midisync.extractNotes, Nogui.extractNotes, Midisync.groupNotes, Nogui.groupNotes,
    Midisync.sortByStart, Nogui.sortByStart, Midisync.noteEventsOf, Nogui.noteEventsOf,
    hstep, hins, hgs]

/-- C8: unmatched event conditions are silently absorbed.  A note-off (or a
zero-velocity note-on) whose pitch has no recorded start emits nothing and
leaves the note table and emitted list unchanged (first and second
conjuncts); a note-begin for an already-active pitch overwrites the
recorded start (third conjunct); consequently a pitch started twice and
ended once emits exactly one interval, carrying the second start — the
earlier note is never emitted (fourth conjunct). -/
theorem unmatched_events_silent :
    (∀ (st : ExtractState) (p : Nat) (dt : ℚ),
        List.lookup p st.activeNotes = none →
        stepMsg st (.noteOff p dt)
          = { currentTime := st.currentTime + dt, activeNotes := st.activeNotes,
              noteEvents := st.noteEvents }) ∧
    (∀ (st : ExtractState) (p : Nat) (dt : ℚ),
        List.lookup p st.activeNotes = none →
        stepMsg st (.noteOn p 0 dt)
          = { currentTime := st.currentTime + dt, activeNotes := st.activeNotes,
              noteEvents := st.noteEvents }) ∧
    (∀ (st : ExtractState) (p v : Nat) (dt : ℚ), 0 < v →
        stepMsg st (.noteOn p v dt)
          = { currentTime := st.currentTime + dt,
              activeNotes := dictInsert p (st.currentTime + dt) st.activeNotes,
              noteEvents := st.noteEvents } ∧
        List.lookup p (dictInsert p (st.currentTime + dt) st.activeNotes)
          = some (st.currentTime + dt)) ∧
    (∀ (p : Nat) (t1 t2 t3 : ℚ),
        noteEventsOf [.noteOn p 1 t1, .noteOn p 1 t2, .noteOff p t3]
          = [⟨p, t1 + t2, t1 + t2 + t3⟩]) := by
  refine ⟨?_, ?_, ?_, ?_⟩
  · intro st p dt hnone
    simp [stepMsg, hnone]
  · intro st p dt hnone
    simp [stepMsg, hnone]
  · intro st p v dt hv
    constructor
    · simp [stepMsg, hv]
    · exact lookup_dictInsert_self p (st.currentTime + dt) st.activeNotes
  · intro p t1 t2 t3
    simp [noteEventsOf, stepMsg, dictInsert, List.lookup]

/-- Witness for C8 on concrete states and a concrete double-start stream. -/
theorem unmatched_events_silent_witness :
    stepMsg ⟨0, [], []⟩ (.noteOff 60 1)
        = { currentTime := (0:ℚ) + 1, activeNotes := [], noteEvents := [] } ∧
    stepMsg ⟨0, [], []⟩ (.noteOn 60 0 1)
        = { currentTime := (0:ℚ) + 1, activeNotes := [], noteEvents := [] } ∧
    List.lookup 60 (dictInsert 60 ((0:ℚ) + 1) []) = some ((0:ℚ) + 1) ∧
    noteEventsOf [.noteOn 60 1 0, .noteOn 60 1 (1/2), .noteOff 60 (1/2)]
        = [⟨60, 0 + 1/2, 0 + 1/2 + 1/2⟩] :=
  ⟨unmatched_events_silent.1 ⟨0, [], []⟩ 60 1 rfl,
   unmatched_events_silent.2.1 ⟨0, [], []⟩ 60 1 rfl,
   (unmatched_events_silent.2.2.1 ⟨0, [], []⟩ 60 1 1 (by norm_num)).2,
   unmatched_events_silent.2.2.2 60 0 (1/2) (1/2)⟩

/-- `filterMap` of an everywhere-`some` function is a `map`. -/
theorem filterMap_some_eq_map {α β : Type} (g : α → β) (l : List α) :
    l.filterMap (fun a => some (g a)) = l.map g := by
  induction l with
  | nil => rfl
  | cons x xs ih => simp [List.filterMap_cons, ih]

/-- C6: in both builders a content segment is flipped exactly when its
group's `noteNum` is even: the flip flags of the output are the per-group
parity bits in group order, for every cursor position (so parity depends
only on the group's own index, not on the segment's place in the output),
and filler segments carry no flip flag. -/
theorem flip_parity (srcDur currentPos : ℚ) (evs : List GroupedEvent) :
    (buildMidisync srcDur currentPos evs).filterMap Segment.flipOf
        = evs.map (fun ev => (ev.noteNum % 2 == 0 : Bool)) ∧
    (buildNogui srcDur currentPos evs).filterMap Segment.flipOf
        = evs.map (fun ev => (ev.noteNum % 2 == 0 : Bool)) ∧
    (∀ d : ℚ, (Segment.filler d).flipOf = none) := by
  refine ⟨?_, ?_, fun _ => rfl⟩
  · rw [buildMidisync_eq_buildWith, buildWith_filterMap_flip]
    simp only [noteClipMidisync_flipOf]
    exact filterMap_some_eq_map _ evs
  · rw [buildNogui_eq_buildWith, buildWith_filterMap_flip]
    simp only [noteClipNogui_flipOf]
    exact filterMap_some_eq_map _ evs

/-- C5: when the content duration `d = end - start` is positive and the
source is at least as long, both builders emit the single TRIM content
segment of duration `d` for the group (first conjunct); the bounce (resp.
loop) path is taken only when the source is strictly shorter than `d`
(second and third conjuncts). -/
theorem trim_fit_policy :
    (∀ (srcDur : ℚ) (ev : GroupedEvent),
        0 < ev.endTime - ev.start → ev.endTime - ev.start ≤ srcDur →
        noteClipMidisync srcDur ev
            = .content (ev.endTime - ev.start) (ev.noteNum % 2 == 0) .trim ∧
        noteClipNogui srcDur ev
            = .content (ev.endTime - ev.start) (ev.noteNum % 2 == 0) .trim) ∧
    (∀ (srcDur : ℚ) (ev : GroupedEvent),
        (noteClipMidisync srcDur ev).styleOf = some .bounce →
        srcDur < ev.endTime - ev.start) ∧
    (∀ (srcDur : ℚ) (ev : GroupedEvent),
        (noteClipNogui srcDur ev).styleOf = some .loop →
        srcDur < ev.endTime - ev.start) := by
  refine ⟨?_, ?_, ?_⟩
  · intro srcDur ev _ hfit
    have hnot : ¬(srcDur < ev.endTime - ev.start) := not_lt.mpr hfit
    constructor
    · simp only [noteClipMidisync]
      rw [if_neg hnot]
    · simp only [noteClipNogui]
      rw [if_neg hnot]
  · intro srcDur ev hsty
    by_cases h : srcDur < ev.endTime - ev.start
    · exact h
    · exfalso
      simp only [noteClipMidisync, if_neg h, Segment.styleOf] at hsty
      exact absurd (Option.some.inj hsty) (by intro hh; cases hh)
  · intro srcDur ev hsty
    by_cases h : srcDur < ev.endTime - ev.start
    · exact h
    · exfalso
      simp only [noteClipNogui, if_neg h, Segment.styleOf] at hsty
      exact absurd (Option.some.inj hsty) (by intro hh; cases hh)

/-- Witness for C5: source duration 5, content duration 3 gives one TRIM
segment of duration 3. -/
theorem trim_fit_policy_witness :
    noteClipMidisync 5 ⟨1, 0, 3⟩ = .content (3 - 0 : ℚ) false .trim ∧
    noteClipNogui 5 ⟨1, 0, 3⟩ = .content (3 - 0 : ℚ) false .trim :=
  trim_fit_policy.1 5 ⟨1, 0, 3⟩ (by norm_num) (by norm_num)

/-- Indexing a list known to be a mapped range evaluates the function. -/
theorem get_of_eq_map {β : Type} (l : List β) (f : ℕ → β) (n : ℕ)
    (hl : l = (List.range n).map f) (i : ℕ) (h : i < l.length) : l.get ⟨i, h⟩ = f i := by
  subst hl
  rw [List.get_eq_getElem, List.getElem_map, List.getElem_range]

/-- C7: for `0 < src < d` the bounce chunk loop terminates (the function is
total; the chunk list has exactly `⌈d/src⌉` entries, fourth conjunct), the
`i`-th chunk has length `min(remaining, src)` where the remaining duration
is `d - i·src` (second conjunct), directions alternate starting forward
(third conjunct), and the chunk durations sum to exactly `d`, never
exceeding it (first conjunct). -/
theorem bounce_chunk_structure (src d : ℚ) (hs : 0 < src) (hd : 0 < d) (hlt : src < d) :
    ((bounceChunks src true d).map Prod.fst).sum = d ∧
    (∀ (i : ℕ) (h : i < (bounceChunks src true d).length),
        ((bounceChunks src true d).get ⟨i, h⟩).1 = min (d - (i : ℚ) * src) src) ∧
    (∀ (i : ℕ) (h : i < (bounceChunks src true d).length),
        ((bounceChunks src true d).get ⟨i, h⟩).2 = decide (i % 2 = 0)) ∧
    (bounceChunks src true d).length = ⌈d / src⌉.toNat := by
  refine ⟨?_, ?_, ?_, ?_⟩
  · rw [bounceChunks_sum hs, max_eq_left hd.le]
  · intro i h
    rw [get_of_eq_map _ _ _ (bounceChunks_closed hs true d) i h]
  · intro i h
    rw [get_of_eq_map _ _ _ (bounceChunks_closed hs true d) i h]
    by_cases hp : i % 2 = 0
    · simp [hp]
    · simp [hp]
  · rw [bounceChunks_closed hs]
    simp

/-- Witness for C7 at source duration 2, content duration 5: three chunks
summing to 5. -/
theorem bounce_chunk_structure_witness :
    ((bounceChunks 2 true 5).map Prod.fst).sum = 5 ∧
    (bounceChunks 2 true 5).length = ⌈(5:ℚ) / 2⌉.toNat :=
  ⟨(bounce_chunk_structure 2 5 (by norm_num) (by norm_num) (by norm_num)).1,
   (bounce_chunk_structure 2 5 (by norm_num) (by norm_num) (by norm_num)).2.2.2⟩

/-- C1 (amended): for a non-empty grouped-event sequence whose first start
is ≥ 0 and whose consecutive events do not overlap (each end ≤ the next
start), and a positive source duration, the segment durations emitted by
either builder sum to the last event's end. -/
theorem timeline_coverage_nonoverlapping (srcDur : ℚ) (hs : 0 < srcDur)
    (ev : GroupedEvent) (rest : List GroupedEvent)
    (h0 : 0 ≤ ev.start)
    (hchain : List.Chain' (fun a b => a.endTime ≤ b.start) (ev :: rest)) :
    segsSum (buildMidisync srcDur 0 (ev :: rest)) = lastEnd (ev :: rest) ∧
    segsSum (buildNogui srcDur 0 (ev :: rest)) = lastEnd (ev :: rest) := by
  constructor
  · rw [buildMidisync_eq_buildWith,
      buildWith_sum _ (noteClipMidisync_duration srcDur hs) rest ev 0 h0 hchain]
    ring
  · rw [buildNogui_eq_buildWith,
      buildWith_sum _ (noteClipNogui_duration srcDur) rest ev 0 h0 hchain]
    ring

/-- Witness for C1 on the spec's end-to-end example: segments
content 1/2, filler 1/10, content 2/5 sum to the last end 1. -/
theorem timeline_coverage_witness :
    segsSum (buildMidisync 1 0 [⟨1, 0, 1/2⟩, ⟨2, 3/5, 1⟩]) = lastEnd [⟨1, 0, 1/2⟩, ⟨2, 3/5, 1⟩] ∧
    segsSum (buildNogui 1 0 [⟨1, 0, 1/2⟩, ⟨2, 3/5, 1⟩]) = lastEnd [⟨1, 0, 1/2⟩, ⟨2, 3/5, 1⟩] :=
  timeline_coverage_nonoverlapping 1 (by norm_num) ⟨1, 0, 1/2⟩ [⟨2, 3/5, 1⟩] (by norm_num)
    (by
      refine List.chain'_cons.mpr ⟨?_, List.chain'_singleton _⟩
      show (1/2 : ℚ) ≤ 3/5
      norm_num)

/-- Counterexample to C1 as stated: for the ordered but overlapping groups
(1, start 0, end 10) and (2, start 1, end 2) both builders emit segments
summing to 11, not the last end 2. -/
theorem timeline_coverage_overlap_cex :
    segsSum (buildMidisync 100 0 [⟨1, 0, 10⟩, ⟨2, 1, 2⟩]) ≠ lastEnd [⟨1, 0, 10⟩, ⟨2, 1, 2⟩] ∧
    segsSum (buildNogui 100 0 [⟨1, 0, 10⟩, ⟨2, 1, 2⟩]) ≠ lastEnd [⟨1, 0, 10⟩, ⟨2, 1, 2⟩] := by
  constructor <;>
  · norm_num [buildMidisync, buildNogui, gapClip, noteClipMidisync, noteClipNogui, segsSum,
      lastEnd, Segment.duration]

/-- C2 (amended): a group whose content duration `end - start` is ≤ 0 is
not special-cased: both builders emit a TRIM content segment of that
non-positive duration for it (first two conjuncts) and advance the cursor
to the group's end (last two conjuncts). -/
theorem zero_duration_content_emitted (srcDur : ℚ) (hs : 0 < srcDur)
    (ev : GroupedEvent) (hd : ev.endTime - ev.start ≤ 0) :
    noteClipMidisync srcDur ev
        = .content (ev.endTime - ev.start) (ev.noteNum % 2 == 0) .trim ∧
    noteClipNogui srcDur ev
        = .content (ev.endTime - ev.start) (ev.noteNum % 2 == 0) .trim ∧
    (∀ (currentPos : ℚ) (rest : List GroupedEvent),
        buildMidisync srcDur currentPos (ev :: rest)
          = gapClip currentPos ev
              ++ noteClipMidisync srcDur ev :: buildMidisync srcDur ev.endTime rest) ∧
    (∀ (currentPos : ℚ) (rest : List GroupedEvent),
        buildNogui srcDur currentPos (ev :: rest)
          = gapClip currentPos ev
              ++ noteClipNogui srcDur ev :: buildNogui srcDur ev.endTime rest) := by
  have hnot : ¬(srcDur < ev.endTime - ev.start) := not_lt.mpr (le_trans hd hs.le)
  refine ⟨?_, ?_, fun _ _ => rfl, fun _ _ => rfl⟩
  · simp only [noteClipMidisync]
    rw [if_neg hnot]
  · simp only [noteClipNogui]
    rw [if_neg hnot]

/-- Witness for C2 (amended) at a zero-length group. -/
theorem zero_duration_content_emitted_witness :
    noteClipMidisync 1 ⟨1, 0, 0⟩ = .content (0 - 0 : ℚ) false .trim ∧
    noteClipNogui 1 ⟨1, 0, 0⟩ = .content (0 - 0 : ℚ) false .trim :=
  ⟨(zero_duration_content_emitted 1 (by norm_num) ⟨1, 0, 0⟩ (by norm_num)).1,
   (zero_duration_content_emitted 1 (by norm_num) ⟨1, 0, 0⟩ (by norm_num)).2.1⟩

/-- Counterexample to C2 as stated: the group (1, start 0, end 0) puts a
zero-duration content segment into both builders' output. -/
theorem zero_duration_content_cex :
    Segment.content 0 false .trim ∈ buildMidisync 1 0 [⟨1, 0, 0⟩] ∧
    Segment.content 0 false .trim ∈ buildNogui 1 0 [⟨1, 0, 0⟩] := by
  constructor <;>
  · norm_num [buildMidisync, buildNogui, gapClip, noteClipMidisync, noteClipNogui]

/-- Counterexample to C3 as stated: with the non-positive chord threshold
-1 the nogui pipeline is not rejected — the event stream is processed and
segments are produced. -/
theorem config_rejection_cex :
    (createVideoSegments [.noteOn 60 1 0, .noteOff 60 1] (-1) 1).isSome = true ∧
    createVideoSegments [.noteOn 60 1 0, .noteOff 60 1] (-1) 1
      = some [.content 1 false .trim] := by
  have key : createVideoSegments [.noteOn 60 1 0, .noteOff 60 1] (-1) 1
      = some [.content 1 false .trim] := by
    norm_num [createVideoSegments, Nogui.extractNotes, Nogui.noteEventsOf, Nogui.stepMsg,
      Nogui.sortByStart, Nogui.insertByStart, Nogui.groupNotes, Nogui.groupStep,
      dictInsert, List.lookup, buildNogui, gapClip, noteClipNogui]
  exact ⟨by rw [key]; rfl, key⟩

/-- C3 (amended): no configuration validation exists; for every
non-positive chord threshold the nogui pipeline still extracts, groups and
builds the timeline of a concrete one-note stream, producing its segment. -/
theorem no_config_validation (t : ℚ) (ht : t ≤ 0) :
    createVideoSegments [.noteOn 60 1 0, .noteOff 60 1] t 1
      = some [.content 1 false .trim] := by
  norm_num [createVideoSegments, Nogui.extractNotes, Nogui.noteEventsOf, Nogui.stepMsg,
    Nogui.sortByStart, Nogui.insertByStart, Nogui.groupNotes, Nogui.groupStep,
    dictInsert, List.lookup, buildNogui, gapClip, noteClipNogui]

/-- Witness for C3 (amended) at chord threshold -1. -/
theorem no_config_validation_witness :
    createVideoSegments [.noteOn 60 1 0, .noteOff 60 1] (-1) 1
      = some [.content 1 false .trim] :=
  no_config_validation (-1) (by norm_num)
